import Mathlib

/-!
Verification development for the local file database adapter
(`src/functions/utils/localFileDatabase.js`).

The adapter is a file-backed key-value store with three namespaces
(files, settings, queued index operations) multiplexed behind a generic
interface by reserved key prefixes.  This file gives a shallow embedding
of its data model and operations and proves the specified properties.

Modelling conventions:
* JavaScript values stored in the database are modelled by the `Json`
  inductive (JSON numbers are restricted to integers; `undefined` fields
  are modelled with `Option`).
* JavaScript objects acting as maps are modelled as association lists in
  insertion order; `Object.keys` is `List.map Prod.fst`.
* `String.prototype.startsWith` is `List.isPrefixOf` on the character
  data, and the default `Array.prototype.sort()` comparator is the
  code-unit order `strLe` defined below.
* `JSON.parse` / `JSON.stringify` are modelled by an executable
  parser/printer pair (`Json.parse` / `Json.stringify`) for the compact
  JSON fragment the adapter produces (no insignificant whitespace,
  integer numerals).
* Asynchrony and the persistence step are irrelevant to the claims about
  the in-memory document and are not modelled; `ensureLoaded` is
  modelled as a pure function of the constructor state and an abstract
  read result for the backing file, returning the new state together
  with the list of logged error messages, or an error for a failure the
  source does not catch.
-/

/-- JSON values (JavaScript numbers restricted to integers). -/
inductive Json where
  | null
  | bool (b : Bool)
  | num (n : Int)
  | str (s : String)
  | arr (elems : List Json)
  | obj (fields : List (String × Json))

/-- JavaScript truthiness of a JSON value. -/
def Json.truthy : Json → Bool
  | .null => false
  | .bool b => b
  | .num n => n != 0
  | .str s => s != ""
  | .arr _ => true
  | .obj _ => true

/-- Code-unit comparison of character lists, as used by the default
JavaScript string comparison. -/
def charsLe : List Char → List Char → Bool
  | [], _ => true
  | _ :: _, [] => false
  | a :: as, b :: bs => if a < b then true else if b < a then false else charsLe as bs

/-- The order in which JavaScript `Array.prototype.sort()` arranges
distinct string keys. -/
def strLe (a b : String) : Prop := charsLe a.data b.data = true

instance : DecidableRel strLe := fun a b => by unfold strLe; infer_instance

/-- Lookup in an association list, modelling JavaScript property access
`map[key]` (returning `undefined` as `none`). -/
def findVal : List (String × α) → String → Option α
  | [], _ => none
  | (k, v) :: rest, key => if k = key then some v else findVal rest key

/-- Assignment `map[key] = value` on an association list: overwrites in
place if present, appends otherwise. -/
def putAssoc : List (String × α) → String → α → List (String × α)
  | [], key, value => [(key, value)]
  | (k, v) :: rest, key, value =>
    if k = key then (key, value) :: rest else (k, v) :: putAssoc rest key value

/-- Removal `delete map[key]` on an association list. -/
def delAssoc : List (String × α) → String → List (String × α)
  | [], _ => []
  | (k, v) :: rest, key => if k = key then rest else (k, v) :: delAssoc rest key

/-! ### JSON printing, modelling `JSON.stringify` (compact form) -/

/-- Decimal digit character. -/
def digitCh (d : Nat) : Char := Char.ofNat (48 + d)

/-- Lowercase hexadecimal digit character. -/
def hexDigitCh (d : Nat) : Char := if d < 10 then Char.ofNat (48 + d) else Char.ofNat (87 + d)

/-- Decimal digits of a natural number, least significant first; the
first argument is recursion fuel (`n` itself suffices). -/
def natToRevDigits : Nat → Nat → List Nat
  | 0, _ => []
  | _ + 1, 0 => []
  | f + 1, n + 1 => ((n + 1) % 10) :: natToRevDigits f ((n + 1) / 10)

/-- Decimal numeral of a natural number. -/
def renderNatChars (n : Nat) : List Char :=
  if n = 0 then ['0'] else ((natToRevDigits n n).map digitCh).reverse

/-- Decimal numeral of an integer, as printed by `JSON.stringify`. -/
def renderIntChars : Int → List Char
  | .ofNat m => renderNatChars m
  | .negSucc m => '-' :: renderNatChars (m + 1)

/-- The escape sequence `JSON.stringify` uses for one character inside a
string literal. -/
def escapeChar (c : Char) : List Char :=
  if c = '"' then ['\\', '"']
  else if c = '\\' then ['\\', '\\']
  else if c = '\x08' then ['\\', 'b']
  else if c = '\x09' then ['\\', 't']
  else if c = '\x0a' then ['\\', 'n']
  else if c = '\x0c' then ['\\', 'f']
  else if c = '\x0d' then ['\\', 'r']
  else if c.toNat < 32 then ['\\', 'u', '0', '0', hexDigitCh (c.toNat / 16), hexDigitCh (c.toNat % 16)]
  else [c]

/-- A JSON string literal for the given character content. -/
def quoteChars (s : List Char) : List Char :=
  '"' :: ((s.map escapeChar).flatten ++ ['"'])

mutual
/-- Compact JSON rendering of a value, as `JSON.stringify` prints it. -/
def Json.render : Json → List Char
  | .num n => renderIntChars n
  | .str s => quoteChars s.data
  | .arr l => '[' :: (renderElems l ++ [']'])
  | .obj l => '\x7b' :: (renderFields l ++ ['\x7d'])
  | .null => ['n', 'u', 'l', 'l']
  | .bool false => ['f', 'a', 'l', 's', 'e']
  | .bool true => ['t', 'r', 'u', 'e']
/-- Comma-separated rendering of array elements. -/
def renderElems : List Json → List Char
  | [] => []
  | [v] => Json.render v
  | v :: vs => Json.render v ++ ',' :: renderElems vs
/-- Comma-separated rendering of object members. -/
def renderFields : List (String × Json) → List Char
  | [] => []
  | [(k, v)] => quoteChars k.data ++ ':' :: Json.render v
  | (k, v) :: tl => quoteChars k.data ++ ':' :: Json.render v ++ ',' :: renderFields tl
end

/-- `JSON.stringify` on the modelled JSON fragment. -/
def Json.stringify (j : Json) : String := ⟨j.render⟩

/-! ### JSON parsing, modelling `JSON.parse` on the compact fragment -/

/-- Value of a hexadecimal digit character. -/
def hexVal (c : Char) : Option Nat :=
  if 48 ≤ c.toNat ∧ c.toNat ≤ 57 then some (c.toNat - 48)
  else if 97 ≤ c.toNat ∧ c.toNat ≤ 102 then some (c.toNat - 87)
  else if 65 ≤ c.toNat ∧ c.toNat ≤ 70 then some (c.toNat - 55)
  else none

/-- Unescaped character for a single-character escape sequence. -/
def unescCh : Char → Option Char
  | '"' => some '"'
  | '\\' => some '\\'
  | '/' => some '/'
  | 'b' => some '\x08'
  | 't' => some '\x09'
  | 'n' => some '\x0a'
  | 'f' => some '\x0c'
  | 'r' => some '\x0d'
  | _ => none

/-- Parse the body of a JSON string literal (after the opening quote),
returning the content and the input after the closing quote. -/
def parseStrBody : List Char → Option (List Char × List Char)
  | [] => none
  | c :: rest =>
    if c = '"' then some ([], rest)
    else if c = '\\' then
      match rest with
      | [] => none
      | 'u' :: h1 :: h2 :: h3 :: h4 :: r2 =>
        match hexVal h1, hexVal h2, hexVal h3, hexVal h4 with
        | some a, some b, some cc, some d =>
          (parseStrBody r2).map
            (fun p => (Char.ofNat (((a * 16 + b) * 16 + cc) * 16 + d) :: p.1, p.2))
        | _, _, _, _ => none
      | e :: r2 =>
        match unescCh e with
        | some u => (parseStrBody r2).map (fun p => (u :: p.1, p.2))
        | none => none
    else (parseStrBody rest).map (fun p => (c :: p.1, p.2))

/-- Parse a nonempty run of decimal digits into a natural number. -/
def parseNat (cs : List Char) : Option (Nat × List Char) :=
  let ds := cs.takeWhile Char.isDigit
  if ds = [] then none
  else some (ds.foldl (fun a c => a * 10 + (c.toNat - 48)) 0, cs.dropWhile Char.isDigit)

/-- Parser mode: a single value, array elements, or object members. -/
inductive PMode where
  | val
  | elems
  | fields

/-- Parser result for each mode. -/
inductive POut where
  | v (j : Json)
  | es (l : List Json)
  | fs (l : List (String × Json))

/-- Fuel-indexed recursive-descent parser for the compact JSON fragment
produced by `Json.render`. -/
def parseF : Nat → PMode → List Char → Option (POut × List Char)
  | 0, _, _ => none
  | f + 1, .val, cs =>
    match cs with
    | [] => none
    | c :: rest =>
      if c = 'n' then
        match rest with
        | 'u' :: 'l' :: 'l' :: r => some (.v .null, r)
        | _ => none
      else if c = 't' then
        match rest with
        | 'r' :: 'u' :: 'e' :: r => some (.v (.bool true), r)
        | _ => none
      else if c = 'f' then
        match rest with
        | 'a' :: 'l' :: 's' :: 'e' :: r => some (.v (.bool false), r)
        | _ => none
      else if c = '"' then
        match parseStrBody rest with
        | some (sc, r) => some (.v (.str ⟨sc⟩), r)
        | none => none
      else if c = '[' then
        match rest with
        | [] => none
        | c2 :: r2 =>
          if c2 = ']' then some (.v (.arr []), r2)
          else
            match parseF f .elems (c2 :: r2) with
            | some (.es l, r) => some (.v (.arr l), r)
            | _ => none
      else if c = '\x7b' then
        match rest with
        | [] => none
        | c2 :: r2 =>
          if c2 = '\x7d' then some (.v (.obj []), r2)
          else
            match parseF f .fields (c2 :: r2) with
            | some (.fs l, r) => some (.v (.obj l), r)
            | _ => none
      else if c = '-' then
        match parseNat rest with
        | some (n, r) => some (.v (.num (-(n : Int))), r)
        | none => none
      else if c.isDigit then
        match parseNat (c :: rest) with
        | some (n, r) => some (.v (.num (n : Int)), r)
        | none => none
      else none
  | f + 1, .elems, cs =>
    match parseF f .val cs with
    | some (.v j, r) =>
      match r with
      | [] => none
      | c2 :: r2 =>
        if c2 = ',' then
          match parseF f .elems r2 with
          | some (.es l, r3) => some (.es (j :: l), r3)
          | _ => none
        else if c2 = ']' then some (.es [j], r2)
        else none
    | _ => none
  | f + 1, .fields, cs =>
    match cs with
    | [] => none
    | c :: r =>
      if c = '"' then
        match parseStrBody r with
        | some (kc, r1) =>
          match r1 with
          | [] => none
          | c2 :: r2 =>
            if c2 = ':' then
              match parseF f .val r2 with
              | some (.v j, r3) =>
                match r3 with
                | [] => none
                | c3 :: r4 =>
                  if c3 = ',' then
                    match parseF f .fields r4 with
                    | some (.fs l, r5) => some (.fs ((⟨kc⟩, j) :: l), r5)
                    | _ => none
                  else if c3 = '\x7d' then some (.fs [(⟨kc⟩, j)], r4)
                  else none
              | _ => none
            else none
        | none => none
      else none

/-- `JSON.parse` on the modelled fragment (the whole input must be
consumed). -/
def Json.parse (s : String) : Option Json :=
  match parseF (2 * s.data.length + 2) .val s.data with
  | some (.v j, []) => some j
  | _ => none

mutual
/-- Size measure used for the parser fuel accounting. -/
def Json.sz : Json → Nat
  | .null => 1
  | .bool _ => 1
  | .num _ => 1
  | .str _ => 1
  | .arr l => szElems l + 1
  | .obj l => szFields l + 1
/-- Size measure of array elements. -/
def szElems : List Json → Nat
  | [] => 0
  | v :: vs => Json.sz v + szElems vs + 1
/-- Size measure of object members. -/
def szFields : List (String × Json) → Nat
  | [] => 0
  | (_, v) :: tl => Json.sz v + szFields tl + 1
end

/-! ### The adapter data model -/

/-- A record of the `files` namespace: `{value, metadata}`; `metadata`
is `none` for a record written before metadata support. -/
structure FileRecord where
  value : Json
  metadata : Option Json

/-- A record of the `operations` namespace.  A missing `timestamp`,
`data` or `processed` field (possible for records loaded from disk) is
`none`. -/
structure StoredOp where
  type : String
  timestamp : Option Int
  data : Option Json
  processed : Option Bool

/-- Result shape of `getIndexOperation` (`processed` defaulted). -/
structure OpOut where
  type : String
  timestamp : Option Int
  data : Option Json
  processed : Bool

/-- Result entry of `listIndexOperations`. -/
structure OpEntry where
  id : String
  type : String
  timestamp : Option Int
  data : Option Json
  processed : Bool

/-- One entry of a `listFiles` result: `{name, metadata}`. -/
structure ListedKey where
  name : String
  metadata : Json

/-- Result shape of `listFiles`. -/
structure ListFilesResult where
  keys : List ListedKey
  cursor : Option String
  list_complete : Bool

/-- Options record accepted by the list operations (and, for `put`, the
metadata option).  Absent fields are `none`. -/
structure ListOptions where
  pfx : Option String
  limit : Option Nat
  cursor : Option String
  processed : Option Bool

/-- Options record accepted by `putFile`. -/
structure PutOpts where
  metadata : Option Json

/-- The in-memory document: three namespaces backed by one JSON file. -/
structure DB where
  files : List (String × FileRecord)
  settings : List (String × Json)
  operations : List (String × StoredOp)

/-- Result shape of `getFile` / `getWithMetadata`: `{value, metadata}`. -/
structure FileGet where
  value : Json
  metadata : Json

/-- The JavaScript idiom `x || default-object`: keeps `x` when present
and truthy, otherwise yields the empty object. -/
def jsOrObj (m : Option Json) : Json :=
  match m with
  | some j => if j.truthy then j else Json.obj []
  | none => Json.obj []

/-- The effective limit `options.limit || 1000` (`0` is falsy). -/
def effLimit : Option Nat → Nat
  | none => 1000
  | some 0 => 1000
  | some (l + 1) => l + 1

/-- The effective cursor `options.cursor || null` (the empty string is
falsy and collapses to no cursor). -/
def effCursor : Option String → Option String
  | none => none
  | some c => if c = "" then none else some c

/-- `Array.prototype.indexOf`: index of the first occurrence, `-1` when
absent. -/
def jsIndexOf (l : List String) (c : String) : Int :=
  match l with
  | [] => -1
  | x :: rest =>
    if x = c then 0
    else
      let r := jsIndexOf rest c
      if r = -1 then -1 else r + 1

/-- The file keys whose name starts with the given string. -/
def matchingKeys (files : List (String × FileRecord)) (px : String) : List String :=
  (files.map Prod.fst).filter (fun k => px.data.isPrefixOf k.data)

/-- The matching file keys in the order produced by `.sort()`. -/
def sortedMatchingKeys (files : List (String × FileRecord)) (px : String) : List String :=
  List.insertionSort strLe (matchingKeys files px)

/-! ### File namespace -/

/-- `putFile(fileId, value, options)`: stores
`{value, metadata: options.metadata || \x7b\x7d}`. -/
def putFile (db : DB) (fileId : String) (value : Json) (options : PutOpts) : DB :=
  { db with files := putAssoc db.files fileId ⟨value, some (jsOrObj options.metadata)⟩ }

/-- `getFile(fileId)`: `null` if absent, else
`{value, metadata: record.metadata || \x7b\x7d}`. -/
def getFile (db : DB) (fileId : String) : Option FileGet :=
  match findVal db.files fileId with
  | none => none
  | some record => some ⟨record.value, jsOrObj record.metadata⟩

/-- `getFileWithMetadata` simply delegates to `getFile`. -/
def getFileWithMetadata (db : DB) (fileId : String) : Option FileGet :=
  getFile db fileId

/-- `listFiles(options)` on a given `files` namespace. -/
def listFilesOn (files : List (String × FileRecord)) (o : ListOptions) : ListFilesResult :=
  let px := o.pfx.getD ""
  let limit := effLimit o.limit
  let cursor := effCursor o.cursor
  let allKeys := sortedMatchingKeys files px
  let startIndex : Nat :=
    match cursor with
    | none => 0
    | some c => (jsIndexOf allKeys c + 1).toNat
  let sliced := (allKeys.drop startIndex).take (limit + 1)
  let hasMore := decide (limit < sliced.length)
  let keys := (if hasMore then sliced.take limit else sliced).map (fun name =>
    ListedKey.mk name (jsOrObj (match findVal files name with
      | some r => r.metadata
      | none => none)))
  { keys := keys
    cursor := if hasMore then (keys.getLast?).map ListedKey.name else none
    list_complete := !hasMore }

/-- `listFiles(options)`. -/
def listFiles (db : DB) (o : ListOptions) : ListFilesResult :=
  listFilesOn db.files o

/-- Repeatedly call `listFiles`, following returned cursors, collecting
the returned key names; `none` when the fuel runs out before a page
reports completion. -/
def runPagination (files : List (String × FileRecord)) (px : String) (L : Nat) :
    Nat → Option String → Option (List String)
  | 0, _ => none
  | fuel + 1, cur =>
    let r := listFilesOn files ⟨some px, some L, cur, none⟩
    let names := r.keys.map ListedKey.name
    match r.cursor with
    | none => some names
    | some c => (runPagination files px L fuel (some c)).map (fun rest => names ++ rest)

/-! ### Settings namespace -/

/-- `putSetting(key, value)`. -/
def putSetting (db : DB) (key : String) (value : Json) : DB :=
  { db with settings := putAssoc db.settings key value }

/-- `getSetting(key)`: `settings[key] ?? null`. -/
def getSetting (db : DB) (key : String) : Json :=
  (findVal db.settings key).getD Json.null

/-- `listSettings(options)` on a given `settings` namespace: prefix
filter, sort, truncate, pair each name with its value. -/
def listSettingsOn (settings : List (String × Json)) (o : ListOptions) : List (String × Json) :=
  let px := o.pfx.getD ""
  let limit := effLimit o.limit
  ((List.insertionSort strLe
      ((settings.map Prod.fst).filter (fun k => px.data.isPrefixOf k.data))).take limit).map
    (fun name => (name, (findVal settings name).getD Json.null))

/-- `listSettings(options)`. -/
def listSettings (db : DB) (o : ListOptions) : List (String × Json) :=
  listSettingsOn db.settings o

/-! ### Index-operation namespace -/

/-- The sort relation `(a.timestamp || 0) - (b.timestamp || 0) <= 0` of
`listIndexOperations`. -/
def opLe (a b : String × StoredOp) : Prop :=
  a.2.timestamp.getD 0 ≤ b.2.timestamp.getD 0

instance : DecidableRel opLe := fun a b => by unfold opLe; infer_instance

/-- `putIndexOperation(operationId, operation)`: stores the four fields,
defaulting `processed` with `?? false`. -/
def putIndexOperation (db : DB) (operationId : String) (operation : StoredOp) : DB :=
  { db with
      operations := putAssoc db.operations operationId
        ⟨operation.type, operation.timestamp, operation.data,
          some (operation.processed.getD false)⟩ }

/-- `getIndexOperation(operationId)`: `null` if absent, else the record
with `processed ?? false`. -/
def getIndexOperation (db : DB) (operationId : String) : Option OpOut :=
  match findVal db.operations operationId with
  | none => none
  | some op => some ⟨op.type, op.timestamp, op.data, op.processed.getD false⟩

/-- The filter predicate of `listIndexOperations`: keep everything when
the `processed` option is nullish, else compare with `===`. -/
def opFilter (o : ListOptions) (e : String × StoredOp) : Bool :=
  match o.processed with
  | none => true
  | some b => e.2.processed == some b

/-- `listIndexOperations(options)` on a given `operations` namespace:
tag with ids, sort by timestamp, filter, truncate, default `processed`
in the output. -/
def listIndexOperationsOn (ops : List (String × StoredOp)) (o : ListOptions) : List OpEntry :=
  let limit := effLimit o.limit
  (((List.insertionSort opLe ops).filter (opFilter o)).take limit).map
    (fun e => ⟨e.1, e.2.type, e.2.timestamp, e.2.data, e.2.processed.getD false⟩)

/-- `listIndexOperations(options)`. -/
def listIndexOperations (db : DB) (o : ListOptions) : List OpEntry :=
  listIndexOperationsOn db.operations o

/-! ### Generic interface (prefix routing) -/

/-- The reserved settings-namespace key marker. -/
def sysP : String := "manage@sysConfig@"

/-- The reserved operation-queue key marker. -/
def opP : String := "manage@index@operation_"

/-- Remove the first occurrence of `pat`, modelling
`key.replace(pat, "")` for a string pattern. -/
def stripFirst (pat : List Char) : List Char → List Char
  | [] => []
  | c :: rest =>
    if pat.isPrefixOf (c :: rest) then (c :: rest).drop pat.length
    else c :: stripFirst pat rest

/-- The operation id extracted from a generic key:
`key.replace(opP, "")`. -/
def stripOp (key : String) : String := ⟨stripFirst opP.data key.data⟩

/-- Decode the `timestamp` field of an operation JSON object. -/
def tsField : Option Json → Option (Option Int)
  | none => some none
  | some (.num n) => some (some n)
  | some _ => none

/-- Decode the `processed` field of an operation JSON object (`null`
behaves like a missing field under `?? false`). -/
def prField : Option Json → Option (Option Bool)
  | none => some none
  | some .null => some none
  | some (.bool b) => some (some b)
  | some _ => none

/-- Decode a JSON object into an operation record.  The model restricts
the generic interface to well-formed operation payloads: a string
`type`, an integer `timestamp` when present, and a boolean `processed`
when present. -/
def decodeOp : Json → Option StoredOp
  | .obj fs =>
    match findVal fs "type" with
    | some (.str t) =>
      match tsField (findVal fs "timestamp"), prField (findVal fs "processed") with
      | some ts, some pr => some ⟨t, ts, findVal fs "data", pr⟩
      | _, _ => none
    | _ => none
  | _ => none

/-- JSON object for an operation record as the caller passes it to the
generic `put` (fields that are `none` are absent, as `JSON.stringify`
drops `undefined` members). -/
def opInJson (op : StoredOp) : Json :=
  Json.obj ([("type", Json.str op.type)]
    ++ (match op.timestamp with | some t => [("timestamp", Json.num t)] | none => [])
    ++ (match op.data with | some d => [("data", d)] | none => [])
    ++ (match op.processed with | some b => [("processed", Json.bool b)] | none => []))

/-- JSON object for a `getIndexOperation` result, in the field order
`JSON.stringify` prints it. -/
def opOutJson (op : OpOut) : Json :=
  Json.obj ([("type", Json.str op.type)]
    ++ (match op.timestamp with | some t => [("timestamp", Json.num t)] | none => [])
    ++ (match op.data with | some d => [("data", d)] | none => [])
    ++ [("processed", Json.bool op.processed)])

/-- Generic `put(key, value, options)`: routes on the reserved key
markers.  Returns `none` when the operation route fails to decode the
payload (where the source would throw from `JSON.parse`, or store an
out-of-model ill-typed record). -/
def dbPut (db : DB) (key : String) (value : Json) (options : PutOpts) : Option DB :=
  if sysP.data.isPrefixOf key.data then some (putSetting db key value)
  else if opP.data.isPrefixOf key.data then
    match value with
    | .str s =>
      match Json.parse s with
      | some j =>
        match decodeOp j with
        | some op => some (putIndexOperation db (stripOp key) op)
        | none => none
      | none => none
    | _ => none
  else some (putFile db key value options)

/-- Generic `get(key)`: settings values are returned as-is, operations
are re-encoded to a JSON string, files yield their raw value;
JavaScript `null` results are `Json.null`. -/
def dbGet (db : DB) (key : String) : Json :=
  if sysP.data.isPrefixOf key.data then getSetting db key
  else if opP.data.isPrefixOf key.data then
    match getIndexOperation db (stripOp key) with
    | some op => Json.str (Json.stringify (opOutJson op))
    | none => Json.null
  else
    match getFile db key with
    | some r => r.value
    | none => Json.null

/-- Generic `getWithMetadata(key)`: for a settings key, wraps the value
when it is truthy and yields `null` otherwise; other keys delegate to
`getFileWithMetadata`. -/
def getWithMetadata (db : DB) (key : String) : Option FileGet :=
  if sysP.data.isPrefixOf key.data then
    let value := getSetting db key
    if value.truthy then some ⟨value, Json.obj []⟩ else none
  else getFileWithMetadata db key

/-! ### Lazy load (`ensureLoaded`) -/

/-- Outcome of reading the backing file: missing (`ENOENT`), unreadable
for any other reason, or its text content. -/
inductive ReadResult where
  | absent
  | unreadable
  | content (s : String)

/-- Constructor-time adapter state: the load flag and the in-memory
document. -/
structure AdapterState where
  dataLoaded : Bool
  data : DB

/-- The empty document the constructor starts from. -/
def emptyDB : DB := ⟨[], [], []⟩

/-- Decode one loaded file record. -/
def decodeFileRecord : Json → Option FileRecord
  | .obj fs => some ⟨(findVal fs "value").getD Json.null, findVal fs "metadata"⟩
  | _ => none

/-- Decode a JSON object into a namespace association list. -/
def decodeNamedMap (dec : Json → Option α) : Json → Option (List (String × α))
  | .obj fs => fs.mapM (fun kv => (dec kv.2).map (fun v => (kv.1, v)))
  | _ => none

/-- Decode a loaded operation record (no `?? false` defaulting happens
at load time). -/
def decodeStoredOp : Json → Option StoredOp
  | .obj fs =>
    match findVal fs "type" with
    | some (.str t) =>
      match tsField (findVal fs "timestamp"), prField (findVal fs "processed") with
      | some ts, some pr => some ⟨t, ts, findVal fs "data", pr⟩
      | _, _ => none
    | _ => none
  | _ => none

/-- Decode a parsed backing file into a document, applying the
`this.data.X = this.data.X || \x7b\x7d` defaulting of missing
namespaces.  `none` marks the paths on which the source would throw
outside its `try` block (non-object JSON) or store records outside the
typed model. -/
def decodeDB (j : Json) : Option DB :=
  match j with
  | .obj fs => do
    let files ← decodeNamedMap decodeFileRecord (jsOrObj (findVal fs "files"))
    let settings ←
      match jsOrObj (findVal fs "settings") with
      | .obj l => some l
      | _ => none
    let operations ← decodeNamedMap decodeStoredOp (jsOrObj (findVal fs "operations"))
    some ⟨files, settings, operations⟩
  | _ => none

/-- `ensureLoaded()` as a function of the constructor state and the
backing file read outcome: returns the new state and the logged error
messages, or an uncaught error.  Read errors other than `ENOENT` and
parse errors are caught and logged, leaving the document unchanged. -/
def ensureLoaded (st : AdapterState) (disk : ReadResult) : Except String (AdapterState × List String) :=
  if st.dataLoaded then .ok (st, [])
  else
    match disk with
    | .absent => .ok (⟨true, st.data⟩, [])
    | .unreadable => .ok (⟨true, st.data⟩, ["Failed to read local database file"])
    | .content s =>
      match Json.parse s with
      | none => .ok (⟨true, st.data⟩, ["Failed to read local database file"])
      | some j =>
        match decodeDB j with
        | some d => .ok (⟨true, d⟩, [])
        | none => .error "TypeError while installing loaded data"

/-! ### Concrete states used by witnesses and counterexamples -/

/-- Two file keys, one of them the empty string. -/
def exDB1 : DB := ⟨[("", ⟨Json.null, none⟩), ("a", ⟨Json.null, none⟩)], [], []⟩

/-- Three ordinary file keys (stored out of order). -/
def exDB2 : DB :=
  ⟨[("b", ⟨Json.str "x", none⟩), ("a", ⟨Json.str "y", none⟩), ("c", ⟨Json.str "z", none⟩)], [], []⟩

/-- A settings namespace holding a falsy (boolean `false`) value. -/
def exDB3 : DB := ⟨[], [("manage@sysConfig@a", Json.bool false)], []⟩

/-- An operation record with no `processed` field. -/
def exOp1 : StoredOp := ⟨"rebuild", some 5, none, none⟩

/-- An operations namespace with one legacy record (no `processed`) and
one processed record. -/
def exDB4 : DB := ⟨[], [], [("a", exOp1), ("b", ⟨"add", some 3, none, some true⟩)]⟩

/-- A settings namespace holding a truthy value. -/
def exDB5 : DB := ⟨[], [("manage@sysConfig@theme", Json.str "dark")], []⟩

instance : IsTotal (String × StoredOp) opLe :=
  ⟨fun _ _ => Int.le_total _ _⟩

instance : IsTrans (String × StoredOp) opLe :=
  ⟨fun _ _ _ hab hbc => le_trans hab hbc⟩

instance : IsTotal String strLe where
  total a b := by
    unfold strLe
    generalize a.data = x
    generalize b.data = y
    induction x generalizing y with
    | nil => left; rfl
    | cons xh xt ih =>
      cases y with
      | nil => right; rfl
      | cons yh yt =>
        by_cases h1 : xh < yh
        · left; simp [charsLe, h1]
        · by_cases h2 : yh < xh
          · right; simp [charsLe, h2]
          · have hxy : xh = yh := le_antisymm (not_lt.mp h2) (not_lt.mp h1)
            subst hxy
            rcases ih yt with h | h
            · left; simp [charsLe, lt_irrefl, h]
            · right; simp [charsLe, lt_irrefl, h]

instance : IsTrans String strLe where
  trans a b c hab hbc := by
    unfold strLe at *
    generalize hx : a.data = x at hab
    generalize hy : b.data = y at hab hbc
    generalize hz : c.data = z at hbc
    clear hx hy hz
    induction x generalizing y z with
    | nil => rfl
    | cons xh xt ih =>
      cases y with
      | nil => simp [charsLe] at hab
      | cons yh yt =>
        cases z with
        | nil => simp [charsLe] at hbc
        | cons zh zt =>
          simp only [charsLe] at hab hbc ⊢
          by_cases h1 : xh < yh
          · by_cases h2 : yh < zh
            · simp [lt_trans h1 h2]
            · by_cases h3 : zh < yh
              · rw [if_neg h2, if_pos h3] at hbc
                exact absurd hbc (by simp)
              · have : yh = zh := le_antisymm (not_lt.mp h3) (not_lt.mp h2)
                subst this
                simp [h1]
          · by_cases h4 : yh < xh
            · rw [if_neg h1, if_pos h4] at hab
              exact absurd hab (by simp)
            · have : xh = yh := le_antisymm (not_lt.mp h4) (not_lt.mp h1)
              subst this
              rw [if_neg h1, if_neg h4] at hab
              by_cases h2 : xh < zh
              · simp [h2]
              · by_cases h3 : zh < xh
                · rw [if_neg h2, if_pos h3] at hbc
                  exact absurd hbc (by simp)
                · rw [if_neg h2, if_neg h3] at hbc
                  simp only [if_neg h2, if_neg h3]
                  apply ih <;> assumption

/-! ## Helper lemmas -/

theorem findVal_putAssoc_self (l : List (String × α)) (k : String) (v : α) :
    findVal (putAssoc l k v) k = some v := by
  induction l with
  | nil => simp [putAssoc, findVal]
  | cons hd tl ih =>
    obtain ⟨k2, v2⟩ := hd
    by_cases hk : k2 = k
    · simp [putAssoc, hk, findVal]
    · simp [putAssoc, hk, findVal, ih]

theorem findVal_eq_none_iff (l : List (String × α)) (k : String) :
    findVal l k = none ↔ k ∉ l.map Prod.fst := by
  induction l with
  | nil => simp [findVal]
  | cons hd tl ih =>
    obtain ⟨k2, v2⟩ := hd
    by_cases hk : k2 = k
    · subst hk; simp [findVal]
    · simp [findVal, hk, ih, Ne.symm hk]

theorem findVal_of_mem (l : List (String × α)) (hnd : (l.map Prod.fst).Nodup)
    (p : String × α) (hp : p ∈ l) : findVal l p.1 = some p.2 := by
  induction l with
  | nil => simp at hp
  | cons hd tl ih =>
    simp only [List.map_cons, List.nodup_cons] at hnd
    rcases List.mem_cons.mp hp with rfl | hp2
    · simp [findVal]
    · have hne : hd.1 ≠ p.1 := by
        intro he
        exact hnd.1 (he ▸ List.mem_map_of_mem Prod.fst hp2)
      have : findVal ((hd.1, hd.2) :: tl) p.1 = findVal tl p.1 := by
        simp [findVal, hne]
      simpa using this.trans (ih hnd.2 hp2)

theorem jsIndexOf_of_not_mem (l : List String) (c : String) (h : c ∉ l) :
    jsIndexOf l c = -1 := by
  induction l with
  | nil => rfl
  | cons x rest ih =>
    simp only [List.mem_cons, not_or] at h
    have hxc : ¬ x = c := fun he => h.1 he.symm
    simp [jsIndexOf, hxc, ih h.2]

theorem jsIndexOf_getElem (l : List String) (hnd : l.Nodup) :
    ∀ (i : Nat) (h : i < l.length), jsIndexOf l l[i] = (i : Int) := by
  induction l with
  | nil => intro i h; simp at h
  | cons x rest ih =>
    intro i h
    match i with
    | 0 => simp [jsIndexOf]
    | Nat.succ j =>
      have hj : j < rest.length := by simpa using h
      have hx : ¬ x = rest[j] := by
        intro he
        have hmem : rest[j] ∈ rest := List.getElem_mem hj
        rw [← he] at hmem
        exact (List.nodup_cons.mp hnd).1 hmem
      have hrec := ih (List.nodup_cons.mp hnd).2 j hj
      have hne : (j : Int) ≠ -1 := by omega
      simp only [List.getElem_cons_succ, jsIndexOf, hx, if_false, hrec, if_neg hne]
      push_cast
      ring

theorem mem_of_mem_sortedMatchingKeys (files : List (String × FileRecord)) (px : String)
    (a : String) (ha : a ∈ sortedMatchingKeys files px) : a ∈ files.map Prod.fst :=
  List.mem_of_mem_filter ((List.perm_insertionSort strLe _).mem_iff.mp ha)

theorem listFilesOn_name_mem (files : List (String × FileRecord)) (o : ListOptions) :
    ∀ e ∈ (listFilesOn files o).keys, e.name ∈ files.map Prod.fst := by
  intro e he
  simp only [listFilesOn, List.mem_map] at he
  obtain ⟨name, hn, rfl⟩ := he
  have h2 : ∀ (b : Bool) (l : List String) (n : Nat),
      name ∈ (if b = true then l.take n else l) → name ∈ l := by
    intro b l n hmem
    cases b
    · simpa using hmem
    · exact List.mem_of_mem_take (by simpa using hmem)
  exact mem_of_mem_sortedMatchingKeys _ _ _
    (List.mem_of_mem_drop (List.mem_of_mem_take (h2 _ _ _ hn)))

theorem listSettingsOn_name_mem (settings : List (String × Json)) (o : ListOptions) :
    ∀ e ∈ listSettingsOn settings o, e.1 ∈ settings.map Prod.fst := by
  intro e he
  simp only [listSettingsOn, List.mem_map] at he
  obtain ⟨name, hn, rfl⟩ := he
  exact List.mem_of_mem_filter
    ((List.perm_insertionSort strLe _).mem_iff.mp (List.mem_of_mem_take hn))

/-! ## Claims -/

/-- C10: `getSetting` (and the generic `get` on a settings-prefixed key)
returns `null` both when the key is absent and when the stored value is
literally `null`, so the two cases are indistinguishable; every non-null
stored value is returned exactly. -/
theorem getSetting_null_collapse (db : DB) (k : String) :
    (getSetting db k = Json.null ↔
      findVal db.settings k = none ∨ findVal db.settings k = some Json.null)
    ∧ (∀ v, findVal db.settings k = some v → v ≠ Json.null → getSetting db k = v)
    ∧ (sysP.data.isPrefixOf k.data = true → dbGet db k = getSetting db k) := by
  refine ⟨?_, ?_, ?_⟩
  · unfold getSetting
    cases h : findVal db.settings k with
    | none => simp
    | some v => simp [h]
  · intro v hv _
    unfold getSetting
    rw [hv]
    rfl
  · intro h
    unfold dbGet
    rw [if_pos h]

/-- Witness for C10 at a concrete store. -/
theorem getSetting_null_collapse_witness :
    findVal exDB3.settings "manage@sysConfig@a" = some (Json.bool false)
    ∧ getSetting exDB3 "manage@sysConfig@a" = Json.bool false
    ∧ dbGet exDB3 "manage@sysConfig@a" = getSetting exDB3 "manage@sysConfig@a" :=
  ⟨rfl,
   (getSetting_null_collapse exDB3 "manage@sysConfig@a").2.1 (Json.bool false) rfl
     (fun h => Json.noConfusion h),
   (getSetting_null_collapse exDB3 "manage@sysConfig@a").2.2 rfl⟩

/-- C3 counterexample: the key is present in the settings namespace with
the stored value `false`, yet `getWithMetadata` returns `null`, because
the source tests the value for truthiness rather than for presence. -/
theorem getWithMetadata_falsy_counterexample :
    findVal exDB3.settings "manage@sysConfig@a" = some (Json.bool false)
    ∧ getWithMetadata exDB3 "manage@sysConfig@a" = none :=
  ⟨rfl, rfl⟩

/-- C3 (amended): for a settings-prefixed key, `getWithMetadata` returns
`\x7bvalue, metadata: \x7b\x7d\x7d` whenever the key is present with a
truthy stored value, and `null` when the key is absent or the stored
value is falsy (`null`, `false`, `0`, the empty string). -/
theorem getWithMetadata_settings_truthy (db : DB) (k : String)
    (hk : sysP.data.isPrefixOf k.data = true) :
    (∀ v, findVal db.settings k = some v → v.truthy = true →
      getWithMetadata db k = some ⟨v, Json.obj []⟩)
    ∧ (findVal db.settings k = none → getWithMetadata db k = none)
    ∧ (∀ v, findVal db.settings k = some v → v.truthy = false →
      getWithMetadata db k = none) := by
  refine ⟨?_, ?_, ?_⟩
  · intro v hv htr
    simp [getWithMetadata, hk, getSetting, hv, htr]
  · intro hv
    simp [getWithMetadata, hk, getSetting, hv, Json.truthy]
  · intro v hv htr
    simp [getWithMetadata, hk, getSetting, hv, htr]

/-- Witness for the amended C3 at a concrete store. -/
theorem getWithMetadata_settings_truthy_witness :
    findVal exDB5.settings "manage@sysConfig@theme" = some (Json.str "dark")
    ∧ getWithMetadata exDB5 "manage@sysConfig@theme" = some ⟨Json.str "dark", Json.obj []⟩
    ∧ getWithMetadata exDB5 "manage@sysConfig@missing" = none :=
  ⟨rfl,
   (getWithMetadata_settings_truthy exDB5 "manage@sysConfig@theme" rfl).1
     (Json.str "dark") rfl rfl,
   (getWithMetadata_settings_truthy exDB5 "manage@sysConfig@missing" rfl).2.1 rfl⟩

/-- C5: file-namespace round trip.  Writing a value with a truthy
metadata object and reading it back returns exactly that value and
metadata; `getFile` is `null` exactly on absent keys; a stored record
without a metadata field reads back with empty metadata. -/
theorem putFile_getFile_roundtrip :
    (∀ (db : DB) (k : String) (v m : Json), m.truthy = true →
      getFile (putFile db k v ⟨some m⟩) k = some ⟨v, m⟩)
    ∧ (∀ (db : DB) (k : String), getFile db k = none ↔ findVal db.files k = none)
    ∧ (∀ (db : DB) (k : String) (v : Json), findVal db.files k = some ⟨v, none⟩ →
      getFile db k = some ⟨v, Json.obj []⟩) := by
  refine ⟨?_, ?_, ?_⟩
  · intro db k v m hm
    unfold putFile getFile
    rw [findVal_putAssoc_self]
    simp [jsOrObj, hm]
  · intro db k
    unfold getFile
    cases h : findVal db.files k <;> simp
  · intro db k v hv
    unfold getFile
    rw [hv]
    simp [jsOrObj]

/-- Witness for C5 at a concrete store. -/
theorem putFile_getFile_roundtrip_witness :
    (Json.obj [("tag", Json.str "a")]).truthy = true
    ∧ getFile (putFile exDB2 "doc1" (Json.str "hello") ⟨some (Json.obj [("tag", Json.str "a")])⟩)
        "doc1" = some ⟨Json.str "hello", Json.obj [("tag", Json.str "a")]⟩ :=
  ⟨rfl,
   putFile_getFile_roundtrip.1 exDB2 "doc1" (Json.str "hello")
     (Json.obj [("tag", Json.str "a")]) rfl⟩

/-- C4: a cursor that does not occur among the keys matching the prefix
is tolerated: `listFiles` behaves exactly as if no cursor were given,
restarting from the beginning. -/
theorem listFiles_unknown_cursor (files : List (String × FileRecord))
    (opx : Option String) (lim : Option Nat) (pr : Option Bool) (c : String)
    (hc : c ∉ matchingKeys files (opx.getD "")) :
    listFilesOn files ⟨opx, lim, some c, pr⟩ = listFilesOn files ⟨opx, lim, none, pr⟩ := by
  by_cases hce : c = ""
  · subst hce
    simp [listFilesOn, effCursor]
  · have hnm : c ∉ sortedMatchingKeys files (opx.getD "") := fun h =>
      hc ((List.perm_insertionSort strLe _).mem_iff.mp h)
    have hidx : jsIndexOf (sortedMatchingKeys files (opx.getD "")) c = -1 :=
      jsIndexOf_of_not_mem _ _ hnm
    simp [listFilesOn, effCursor, hce, hidx]

/-- Witness for C4 at a concrete store. -/
theorem listFiles_unknown_cursor_witness :
    "zz" ∉ matchingKeys exDB2.files ((some "").getD "")
    ∧ listFilesOn exDB2.files ⟨some "", some 2, some "zz", none⟩
        = listFilesOn exDB2.files ⟨some "", some 2, none, none⟩ :=
  ⟨by decide, listFiles_unknown_cursor exDB2.files (some "") (some 2) none "zz" (by decide)⟩

/-- C8: namespace isolation through the generic interface.  A generic
`put` of a settings-prefixed key leaves the files namespace untouched
(so every `listFiles` result is unchanged, and the key appears in none
of them unless it already was a file key); symmetrically a generic
`put` of an unreserved key leaves the settings namespace untouched. -/
theorem put_namespace_isolation (db : DB) (k : String) (v : Json) (o : PutOpts) :
    (sysP.data.isPrefixOf k.data = true →
      (∀ db2, dbPut db k v o = some db2 →
        db2.files = db.files ∧ ∀ lo, listFiles db2 lo = listFiles db lo)
      ∧ (k ∉ db.files.map Prod.fst → ∀ lo, ∀ e ∈ (listFiles db lo).keys, e.name ≠ k))
    ∧ (sysP.data.isPrefixOf k.data = false → opP.data.isPrefixOf k.data = false →
      (∀ db2, dbPut db k v o = some db2 →
        db2.settings = db.settings ∧ ∀ lo, listSettings db2 lo = listSettings db lo)
      ∧ (k ∉ db.settings.map Prod.fst → ∀ lo, ∀ e ∈ listSettings db lo, e.1 ≠ k)) := by
  constructor
  · intro hk
    constructor
    · intro db2 hput
      unfold dbPut at hput
      rw [if_pos hk] at hput
      have hdb2 : db2 = putSetting db k v := by
        injection hput with h
        exact h.symm
      subst hdb2
      exact ⟨rfl, fun lo => rfl⟩
    · intro hmem lo e he hek
      exact hmem (hek ▸ listFilesOn_name_mem db.files lo e he)
  · intro hk1 hk2
    constructor
    · intro db2 hput
      unfold dbPut at hput
      rw [if_neg (by simp [hk1]), if_neg (by simp [hk2])] at hput
      have hdb2 : db2 = putFile db k v o := by
        injection hput with h
        exact h.symm
      subst hdb2
      exact ⟨rfl, fun lo => rfl⟩
    · intro hmem lo e he hek
      exact hmem (hek ▸ listSettingsOn_name_mem db.settings lo e he)

/-- Witness for C8 at a concrete store. -/
theorem put_namespace_isolation_witness :
    (putSetting exDB2 "manage@sysConfig@x" (Json.str "v")).files = exDB2.files
    ∧ ∀ lo, ∀ e ∈ (listFiles exDB2 lo).keys, e.name ≠ "manage@sysConfig@x" :=
  ⟨(((put_namespace_isolation exDB2 "manage@sysConfig@x" (Json.str "v") ⟨none⟩).1 rfl).1
      (putSetting exDB2 "manage@sysConfig@x" (Json.str "v")) rfl).1,
   ((put_namespace_isolation exDB2 "manage@sysConfig@x" (Json.str "v") ⟨none⟩).1 rfl).2
     (by decide)⟩

/-- C9: a stored operation whose `processed` field is missing reads back
from `getIndexOperation` with `processed = false`, yet is excluded from
`listIndexOperations` whenever a boolean `processed` filter is given,
because the filter compares the raw stored field strictly. -/
theorem op_missing_processed (db : DB) (id : String) (op : StoredOp)
    (hnd : (db.operations.map Prod.fst).Nodup)
    (hfind : findVal db.operations id = some op)
    (hpr : op.processed = none) :
    getIndexOperation db id = some ⟨op.type, op.timestamp, op.data, false⟩
    ∧ ∀ (b : Bool) (o : ListOptions), o.processed = some b →
      ∀ e ∈ listIndexOperations db o, e.id ≠ id := by
  constructor
  · unfold getIndexOperation
    rw [hfind]
    simp [hpr]
  · intro b o hb e he hek
    simp only [listIndexOperations, listIndexOperationsOn, List.mem_map] at he
    obtain ⟨p, hp, rfl⟩ := he
    have hp2 : p ∈ (List.insertionSort opLe db.operations).filter (opFilter o) :=
      List.mem_of_mem_take hp
    have hfil : opFilter o p = true := List.of_mem_filter hp2
    have hmem : p ∈ db.operations :=
      (List.perm_insertionSort opLe db.operations).mem_iff.mp (List.mem_of_mem_filter hp2)
    have hfv := findVal_of_mem db.operations hnd p hmem
    simp only at hek
    rw [hek, hfind] at hfv
    have hop : p.2 = op := Option.some.inj hfv.symm
    simp only [opFilter, hb] at hfil
    rw [hop, hpr] at hfil
    exact absurd (eq_of_beq hfil) (by simp)

/-- Witness for C9 at a concrete store. -/
theorem op_missing_processed_witness :
    (exDB4.operations.map Prod.fst).Nodup
    ∧ findVal exDB4.operations "a" = some exOp1
    ∧ getIndexOperation exDB4 "a" = some ⟨"rebuild", some 5, none, false⟩ :=
  ⟨by decide, rfl, (op_missing_processed exDB4 "a" exOp1 (by decide) rfl rfl).1⟩

/-- C6: `listIndexOperations` with `processed: true` returns only
records whose stored flag is exactly `true`, sorted ascending by
timestamp (a missing timestamp counts as `0`), truncated to the
effective limit (default 1000); a nullish `processed` option applies no
filtering. -/
theorem listIndexOperations_spec (db : DB) (o : ListOptions) :
    (o.processed = some true → ∀ e ∈ listIndexOperations db o, e.processed = true)
    ∧ List.Pairwise (fun a b : OpEntry => a.timestamp.getD 0 ≤ b.timestamp.getD 0)
      (listIndexOperations db o)
    ∧ (listIndexOperations db o).length ≤ effLimit o.limit
    ∧ (o.processed = none →
      listIndexOperations db o =
        ((List.insertionSort opLe db.operations).take (effLimit o.limit)).map
          (fun e => ⟨e.1, e.2.type, e.2.timestamp, e.2.data, e.2.processed.getD false⟩)) := by
  refine ⟨?_, ?_, ?_, ?_⟩
  · intro hp e he
    simp only [listIndexOperations, listIndexOperationsOn, List.mem_map] at he
    obtain ⟨p, hp2, rfl⟩ := he
    have hfil : opFilter o p = true := List.of_mem_filter (List.mem_of_mem_take hp2)
    simp only [opFilter, hp] at hfil
    have hsome : p.2.processed = some true := eq_of_beq hfil
    simp [hsome]
  · have hs : List.Pairwise opLe (List.insertionSort opLe db.operations) :=
      List.sorted_insertionSort opLe db.operations
    have h2 : List.Pairwise opLe ((List.insertionSort opLe db.operations).filter (opFilter o)) :=
      hs.filter _
    have h3 : List.Pairwise opLe
        (((List.insertionSort opLe db.operations).filter (opFilter o)).take (effLimit o.limit)) :=
      h2.sublist (List.take_sublist _ _)
    simp only [listIndexOperations, listIndexOperationsOn]
    exact (List.pairwise_map).mpr (h3.imp (fun hab => hab))
  · simp only [listIndexOperations, listIndexOperationsOn, List.length_map]
    exact List.length_take_le _ _
  · intro hp
    have hfe : opFilter o = fun _ => true := funext (fun e => by simp [opFilter, hp])
    simp only [listIndexOperations, listIndexOperationsOn, hfe, List.filter_true]

/-- Witness for C6 at a concrete store. -/
theorem listIndexOperations_spec_witness :
    (∀ e ∈ listIndexOperations exDB4 ⟨none, none, none, some true⟩, e.processed = true)
    ∧ listIndexOperations exDB4 ⟨none, none, none, none⟩ =
      ((List.insertionSort opLe exDB4.operations).take (effLimit none)).map
        (fun e => ⟨e.1, e.2.type, e.2.timestamp, e.2.data, e.2.processed.getD false⟩) :=
  ⟨(listIndexOperations_spec exDB4 ⟨none, none, none, some true⟩).1 rfl,
   (listIndexOperations_spec exDB4 ⟨none, none, none, none⟩).2.2.2 rfl⟩

/-- C2: any load failure other than simple file absence degrades
gracefully.  From the constructor state, an unreadable backing file, or
file content that fails to parse, leaves the in-memory document at its
empty default, logs the failure, and raises no error to the caller. -/
theorem ensureLoaded_failure_graceful :
    ensureLoaded ⟨false, emptyDB⟩ .unreadable =
      .ok (⟨true, emptyDB⟩, ["Failed to read local database file"])
    ∧ ∀ s, Json.parse s = none →
      ensureLoaded ⟨false, emptyDB⟩ (.content s) =
        .ok (⟨true, emptyDB⟩, ["Failed to read local database file"]) := by
  refine ⟨rfl, fun s hs => ?_⟩
  simp [ensureLoaded, hs]

/-- Witness for C2: syntactically corrupt JSON content. -/
theorem ensureLoaded_failure_graceful_witness :
    Json.parse "\x7b" = none
    ∧ ensureLoaded ⟨false, emptyDB⟩ (.content "\x7b") =
      .ok (⟨true, emptyDB⟩, ["Failed to read local database file"]) :=
  ⟨rfl, ensureLoaded_failure_graceful.2 "\x7b" rfl⟩

/-! ## JSON codec round-trip lemmas -/

theorem hexVal_hexDigitCh (d : Nat) (h : d < 16) : hexVal (hexDigitCh d) = some d := by
  interval_cases d <;> decide

theorem toNat_digitCh (d : Nat) (h : d < 10) : (digitCh d).toNat = 48 + d := by
  interval_cases d <;> decide

theorem isDigit_digitCh (d : Nat) (h : d < 10) : (digitCh d).isDigit = true := by
  interval_cases d <;> decide

theorem parseStrBody_cons (c : Char) (rest : List Char) :
    parseStrBody (c :: rest) =
      (if c = '"' then some ([], rest)
      else if c = '\\' then
        match rest with
        | [] => none
        | 'u' :: h1 :: h2 :: h3 :: h4 :: r2 =>
          match hexVal h1, hexVal h2, hexVal h3, hexVal h4 with
          | some a, some b, some cc, some d =>
            (parseStrBody r2).map
              (fun p => (Char.ofNat (((a * 16 + b) * 16 + cc) * 16 + d) :: p.1, p.2))
          | _, _, _, _ => none
        | e :: r2 =>
          match unescCh e with
          | some u => (parseStrBody r2).map (fun p => (u :: p.1, p.2))
          | none => none
      else (parseStrBody rest).map (fun p => (c :: p.1, p.2))) := by
  rw [parseStrBody.eq_def]

theorem parseStrBody_escape (s : List Char) (rest : List Char) :
    parseStrBody ((s.map escapeChar).flatten ++ '"' :: rest) = some (s, rest) := by
  induction s with
  | nil => simp [parseStrBody_cons]
  | cons c cs ih =>
    simp only [List.map_cons, List.flatten_cons, List.append_assoc]
    by_cases h1 : c = '"'
    · subst h1; simp [escapeChar, parseStrBody_cons, unescCh, ih]
    · by_cases h2 : c = '\\'
      · subst h2; simp [escapeChar, parseStrBody_cons, unescCh, ih]
      · by_cases h3 : c = '\x08'
        · subst h3; simp [escapeChar, parseStrBody_cons, unescCh, ih]
        · by_cases h4 : c = '\x09'
          · subst h4; simp [escapeChar, parseStrBody_cons, unescCh, ih]
          · by_cases h5 : c = '\x0a'
            · subst h5; simp [escapeChar, parseStrBody_cons, unescCh, ih]
            · by_cases h6 : c = '\x0c'
              · subst h6; simp [escapeChar, parseStrBody_cons, unescCh, ih]
              · by_cases h7 : c = '\x0d'
                · subst h7; simp [escapeChar, parseStrBody_cons, unescCh, ih]
                · by_cases h8 : c.toNat < 32
                  · have e1 : escapeChar c = ['\\', 'u', '0', '0',
                        hexDigitCh (c.toNat / 16), hexDigitCh (c.toNat % 16)] := by
                      simp [escapeChar, h1, h2, h3, h4, h5, h6, h7, h8]
                    have hv1 : hexVal (hexDigitCh (c.toNat / 16)) = some (c.toNat / 16) :=
                      hexVal_hexDigitCh _ (by omega)
                    have hv2 : hexVal (hexDigitCh (c.toNat % 16)) = some (c.toNat % 16) :=
                      hexVal_hexDigitCh _ (by omega)
                    have hz : hexVal '0' = some 0 := by decide
                    have harith2 : c.toNat / 16 * 16 + c.toNat % 16 = c.toNat := by omega
                    rw [e1]
                    simp [parseStrBody_cons, hz, hv1, hv2, harith2, Char.ofNat_toNat, ih]
                  · have e1 : escapeChar c = [c] := by
                      simp [escapeChar, h1, h2, h3, h4, h5, h6, h7, h8]
                    rw [e1]
                    simp [parseStrBody_cons, h1, h2, ih]

theorem natToRevDigits_eq_digits (f : Nat) :
    ∀ n : Nat, n ≤ f → natToRevDigits f n = Nat.digits 10 n := by
  induction f with
  | zero =>
    intro n h
    interval_cases n
    simp [natToRevDigits]
  | succ f ih =>
    intro n h
    match n with
    | 0 => simp [natToRevDigits]
    | n + 1 =>
      simp only [natToRevDigits]
      rw [ih ((n + 1) / 10) (by omega),
        Nat.digits_def' (by norm_num : (1 : Nat) < 10) (Nat.succ_pos n)]

theorem foldl_reverse_digits (L : List Nat) (acc : Nat) :
    (L.reverse).foldl (fun a d => a * 10 + d) acc = acc * 10 ^ L.length + Nat.ofDigits 10 L := by
  induction L generalizing acc with
  | nil => simp [Nat.ofDigits]
  | cons d ds ih =>
    rw [List.reverse_cons, List.foldl_append, ih]
    simp only [List.foldl_cons, List.foldl_nil, List.length_cons, Nat.ofDigits_cons, pow_succ]
    ring

theorem foldl_chars_digits (bs : List Nat) (hb : ∀ d ∈ bs, d < 10) :
    ∀ acc : Nat, (bs.map digitCh).foldl (fun a c => a * 10 + (c.toNat - 48)) acc
      = bs.foldl (fun a d => a * 10 + d) acc := by
  induction bs with
  | nil => intro acc; rfl
  | cons d ds ih =>
    intro acc
    simp only [List.map_cons, List.foldl_cons]
    rw [toNat_digitCh d (hb d (by simp))]
    have h48 : 48 + d - 48 = d := by omega
    rw [h48]
    exact ih (fun x hx => hb x (by simp [hx])) _

theorem takeWhile_digits (bs : List Nat) (hb : ∀ d ∈ bs, d < 10) (rest : List Char)
    (hrest : ∀ c ∈ rest.head?, c.isDigit = false) :
    (bs.map digitCh ++ rest).takeWhile Char.isDigit = bs.map digitCh
    ∧ (bs.map digitCh ++ rest).dropWhile Char.isDigit = rest := by
  induction bs with
  | nil =>
    simp only [List.map_nil, List.nil_append]
    cases rest with
    | nil => simp
    | cons r rs =>
      have h := hrest r (by simp)
      simp [List.takeWhile_cons, List.dropWhile_cons, h]
  | cons d ds ih =>
    have hd : (digitCh d).isDigit = true := isDigit_digitCh d (hb d (by simp))
    have hih := ih (fun x hx => hb x (by simp [hx]))
    simp [List.takeWhile_cons, List.dropWhile_cons, hd, hih.1, hih.2]

theorem renderNatChars_eq_map (n : Nat) :
    ∃ bs : List Nat, (∀ d ∈ bs, d < 10) ∧ bs ≠ []
      ∧ renderNatChars n = bs.map digitCh
      ∧ bs.foldl (fun a d => a * 10 + d) 0 = n := by
  by_cases h0 : n = 0
  · subst h0
    refine ⟨[0], by simp, by simp, by decide, by simp⟩
  · refine ⟨(Nat.digits 10 n).reverse, ?_, ?_, ?_, ?_⟩
    · intro d hd
      exact Nat.digits_lt_base (by norm_num) (List.mem_reverse.mp hd)
    · simp [Nat.digits_ne_nil_iff_ne_zero, h0]
    · unfold renderNatChars
      rw [if_neg h0, natToRevDigits_eq_digits n n le_rfl, List.map_reverse]
    · rw [foldl_reverse_digits]
      simp [Nat.ofDigits_digits]

theorem parseNat_render (n : Nat) (rest : List Char)
    (hrest : ∀ c ∈ rest.head?, c.isDigit = false) :
    parseNat (renderNatChars n ++ rest) = some (n, rest) := by
  obtain ⟨bs, hb, hne, hmap, hval⟩ := renderNatChars_eq_map n
  rw [hmap]
  obtain ⟨htake, hdrop⟩ := takeWhile_digits bs hb rest hrest
  unfold parseNat
  simp only [htake, hdrop]
  rw [if_neg (by simpa using hne)]
  rw [foldl_chars_digits bs hb, hval]

theorem renderNatChars_head (n : Nat) :
    ∃ c cs, renderNatChars n = c :: cs ∧ c.isDigit = true := by
  obtain ⟨bs, hb, hne, hmap, _⟩ := renderNatChars_eq_map n
  match bs, hne with
  | d :: ds, _ =>
    exact ⟨digitCh d, ds.map digitCh, by simp [hmap], isDigit_digitCh d (hb d (by simp))⟩

theorem isDigit_ne_delims (c : Char) (h : c.isDigit = true) :
    c ≠ 'n' ∧ c ≠ 't' ∧ c ≠ 'f' ∧ c ≠ '"' ∧ c ≠ '[' ∧ c ≠ '\x7b' ∧ c ≠ '-'
      ∧ c ≠ ']' ∧ c ≠ '\x7d' ∧ c ≠ ',' ∧ c ≠ ':' := by
  refine ⟨?_, ?_, ?_, ?_, ?_, ?_, ?_, ?_, ?_, ?_, ?_⟩ <;> (rintro rfl; revert h; decide)

theorem render_head (v : Json) :
    ∃ c cs, v.render = c :: cs ∧ c ≠ ']' ∧ c ≠ '\x7d' := by
  cases v with
  | null => exact ⟨'n', ['u', 'l', 'l'], by simp [Json.render], by decide, by decide⟩
  | bool b =>
    cases b
    · exact ⟨'f', ['a', 'l', 's', 'e'], by simp [Json.render], by decide, by decide⟩
    · exact ⟨'t', ['r', 'u', 'e'], by simp [Json.render], by decide, by decide⟩
  | num n =>
    cases n with
    | ofNat m =>
      obtain ⟨c, cs, hc, hdig⟩ := renderNatChars_head m
      have hne := isDigit_ne_delims c hdig
      exact ⟨c, cs, by simp [Json.render, renderIntChars, hc], hne.2.2.2.2.2.2.2.1,
        hne.2.2.2.2.2.2.2.2.1⟩
    | negSucc m =>
      exact ⟨'-', renderNatChars (m + 1), by simp [Json.render, renderIntChars],
        by decide, by decide⟩
  | str s =>
    exact ⟨'"', (List.map escapeChar s.data).flatten ++ ['"'],
      by simp [Json.render, quoteChars], by decide, by decide⟩
  | arr l => exact ⟨'[', renderElems l ++ [']'], by simp [Json.render], by decide, by decide⟩
  | obj l =>
    exact ⟨'\x7b', renderFields l ++ ['\x7d'], by simp [Json.render], by decide, by decide⟩

theorem sz_pos (v : Json) : 1 ≤ Json.sz v := by
  cases v <;> simp [Json.sz]

theorem szElems_pos (l : List Json) (h : l ≠ []) : 1 ≤ szElems l := by
  cases l with
  | nil => exact absurd rfl h
  | cons v vs => simp [szElems]

theorem szFields_pos (l : List (String × Json)) (h : l ≠ []) : 1 ≤ szFields l := by
  cases l with
  | nil => exact absurd rfl h
  | cons kv tl =>
    obtain ⟨k, v⟩ := kv
    simp [szFields]

theorem cons_of_renderFields (l : List (String × Json)) (hne : l ≠ []) :
    ∃ tl2, renderFields l = '"' :: tl2 := by
  match l, hne with
  | (k, v) :: tl, _ =>
    cases tl with
    | nil =>
      exact ⟨((k.data.map escapeChar).flatten ++ ['"']) ++ ':' :: v.render,
        by simp [renderFields, quoteChars]⟩
    | cons kv2 tl2 =>
      exact ⟨((k.data.map escapeChar).flatten ++ ['"'])
          ++ ':' :: (v.render ++ ',' :: renderFields (kv2 :: tl2)),
        by simp [renderFields, quoteChars]⟩

theorem parseF_render (f : Nat) :
    (∀ (v : Json) (rest : List Char), Json.sz v ≤ f →
      (∀ c ∈ rest.head?, c.isDigit = false) →
      parseF f .val (v.render ++ rest) = some (.v v, rest))
    ∧ (∀ (l : List Json) (rest : List Char), l ≠ [] → szElems l ≤ f →
      parseF f .elems (renderElems l ++ ']' :: rest) = some (.es l, rest))
    ∧ (∀ (l : List (String × Json)) (rest : List Char), l ≠ [] → szFields l ≤ f →
      parseF f .fields (renderFields l ++ '\x7d' :: rest) = some (.fs l, rest)) := by
  induction f with
  | zero =>
    refine ⟨fun v rest hsz _ => absurd hsz (by have := sz_pos v; omega),
      fun l rest hne hsz => absurd hsz (by have := szElems_pos l hne; omega),
      fun l rest hne hsz => absurd hsz (by have := szFields_pos l hne; omega)⟩
  | succ f ih =>
    obtain ⟨ihv, ihe, ihf⟩ := ih
    refine ⟨?_, ?_, ?_⟩
    · intro v rest hsz hrest
      cases v with
      | null => simp [Json.render, parseF]
      | bool b => cases b <;> simp [Json.render, parseF]
      | num n =>
        cases n with
        | ofNat m =>
          obtain ⟨c, cs, hc, hdig⟩ := renderNatChars_head m
          have hne := isDigit_ne_delims c hdig
          have hpn : parseNat (renderNatChars m ++ rest) = some (m, rest) :=
            parseNat_render m rest hrest
          rw [hc] at hpn
          simp only [Json.render, renderIntChars, hc, List.cons_append, parseF]
          rw [if_neg hne.1, if_neg hne.2.1, if_neg hne.2.2.1, if_neg hne.2.2.2.1,
            if_neg hne.2.2.2.2.1, if_neg hne.2.2.2.2.2.1, if_neg hne.2.2.2.2.2.2.1,
            if_pos hdig]
          simp only [List.cons_append] at hpn
          simp [hpn]
        | negSucc m =>
          have hpn : parseNat (renderNatChars (m + 1) ++ rest) = some (m + 1, rest) :=
            parseNat_render (m + 1) rest hrest
          simp only [Json.render, renderIntChars, List.cons_append, parseF]
          simp [hpn, Int.negSucc_eq]
      | str s =>
        simp only [Json.render, quoteChars, List.cons_append, List.append_assoc,
          List.singleton_append, parseF]
        simp [parseStrBody_escape]
      | arr l =>
        cases l with
        | nil => simp [Json.render, renderElems, parseF]
        | cons v' vs' =>
          obtain ⟨c, cs, hc, hcne, _⟩ := render_head v'
          have hre : ∃ tl, renderElems (v' :: vs') = v'.render ++ tl := by
            cases vs' with
            | nil => exact ⟨[], by simp [renderElems]⟩
            | cons w ws => exact ⟨',' :: renderElems (w :: ws), by simp [renderElems]⟩
          obtain ⟨tl, htl⟩ := hre
          have hee : renderElems (v' :: vs') ++ ']' :: rest = c :: (cs ++ (tl ++ ']' :: rest)) := by
            rw [htl, hc]
            simp
          have heres : parseF f .elems (renderElems (v' :: vs') ++ ']' :: rest)
              = some (.es (v' :: vs'), rest) := by
            apply ihe _ _ (by simp)
            have : Json.sz (Json.arr (v' :: vs')) = szElems (v' :: vs') + 1 := by
              simp [Json.sz]
            omega
          rw [hee] at heres
          simp only [Json.render, List.cons_append, List.append_assoc,
            List.singleton_append, List.nil_append, parseF]
          rw [hee]
          simp [hcne, heres]
      | obj l =>
        cases l with
        | nil => simp [Json.render, renderFields, parseF]
        | cons kv tl =>
          obtain ⟨tl2, htl2⟩ := cons_of_renderFields (kv :: tl) (by simp)
          have hff : parseF f .fields (renderFields (kv :: tl) ++ '\x7d' :: rest)
              = some (.fs (kv :: tl), rest) := by
            apply ihf _ _ (by simp)
            have : Json.sz (Json.obj (kv :: tl)) = szFields (kv :: tl) + 1 := by
              simp [Json.sz]
            omega
          rw [htl2] at hff
          simp only [Json.render, List.cons_append, List.append_assoc,
            List.singleton_append, List.nil_append, parseF]
          rw [htl2]
          simp only [List.cons_append] at hff ⊢
          simp [hff]
    · intro l rest hne hsz
      match l, hne with
      | v' :: vs', _ =>
        cases vs' with
        | nil =>
          simp only [szElems] at hsz
          have h1 : parseF f .val (v'.render ++ ']' :: rest) = some (.v v', ']' :: rest) :=
            ihv v' (']' :: rest) (by omega)
              (by intro c hc; simp at hc; subst hc; decide)
          simp only [renderElems, parseF, h1]
          simp
        | cons w ws =>
          simp only [szElems] at hsz
          have h1 : parseF f .val (v'.render ++ ',' :: (renderElems (w :: ws) ++ ']' :: rest))
              = some (.v v', ',' :: (renderElems (w :: ws) ++ ']' :: rest)) :=
            ihv v' _ (by omega)
              (by intro c hc; simp at hc; subst hc; decide)
          have hwsz : szElems (w :: ws) = Json.sz w + szElems ws + 1 := by simp [szElems]
          have h2 : parseF f .elems (renderElems (w :: ws) ++ ']' :: rest)
              = some (.es (w :: ws), rest) :=
            ihe _ _ (by simp) (by omega)
          simp only [renderElems, List.append_assoc, List.cons_append, parseF, h1]
          simp [h2]
    · intro l rest hne hsz
      match l, hne with
      | (k, v') :: tl, _ =>
        cases tl with
        | nil =>
          simp only [szFields] at hsz
          have h1 : parseF f .val (v'.render ++ '\x7d' :: rest)
              = some (.v v', '\x7d' :: rest) :=
            ihv v' _ (by omega)
              (by intro c hc; simp at hc; subst hc; decide)
          simp only [renderFields, quoteChars, List.cons_append, List.append_assoc,
            List.singleton_append, parseF]
          simp [parseStrBody_escape, h1]
        | cons kv2 tl2 =>
          obtain ⟨k2, v2⟩ := kv2
          simp only [szFields] at hsz
          have h1 : parseF f .val
              (v'.render ++ ',' :: (renderFields ((k2, v2) :: tl2) ++ '\x7d' :: rest))
              = some (.v v', ',' :: (renderFields ((k2, v2) :: tl2) ++ '\x7d' :: rest)) :=
            ihv v' _ (by omega)
              (by intro c hc; simp at hc; subst hc; decide)
          have hksz : szFields ((k2, v2) :: tl2) = Json.sz v2 + szFields tl2 + 1 := by
            simp [szFields]
          have h2 : parseF f .fields (renderFields ((k2, v2) :: tl2) ++ '\x7d' :: rest)
              = some (.fs ((k2, v2) :: tl2), rest) := by
            apply ihf _ _ (by simp)
            omega
          simp only [renderFields, quoteChars, List.cons_append, List.append_assoc,
            List.singleton_append, parseF]
          simp [parseStrBody_escape, h1, h2]

theorem renderNatChars_ne_nil (n : Nat) : renderNatChars n ≠ [] := by
  obtain ⟨bs, _, hne, hmap, _⟩ := renderNatChars_eq_map n
  rw [hmap]
  simpa using hne

theorem renderIntChars_ne_nil (m : Int) : renderIntChars m ≠ [] := by
  cases m with
  | ofNat k => simpa [renderIntChars] using renderNatChars_ne_nil k
  | negSucc k => simp [renderIntChars]

theorem sz_le_render_all (n : Nat) :
    (∀ v : Json, sizeOf v ≤ n → Json.sz v ≤ v.render.length)
    ∧ (∀ l : List Json, sizeOf l ≤ n → szElems l ≤ (renderElems l).length + 1)
    ∧ (∀ l : List (String × Json), sizeOf l ≤ n → szFields l ≤ (renderFields l).length + 1) := by
  induction n with
  | zero =>
    refine ⟨fun v h => absurd h ?_, fun l h => absurd h ?_, fun l h => absurd h ?_⟩
    · cases v <;> simp_arith
    · cases l <;> simp_arith
    · cases l <;> simp_arith
  | succ n ih =>
    obtain ⟨ihv, ihe, ihf⟩ := ih
    refine ⟨fun v hv => ?_, fun l hl => ?_, fun l hl => ?_⟩
    · cases v with
      | null => simp [Json.sz, Json.render]
      | bool b => cases b <;> simp [Json.sz, Json.render]
      | num m =>
        have hne := renderIntChars_ne_nil m
        simp only [Json.sz, Json.render]
        exact Nat.one_le_iff_ne_zero.mpr (by simp [hne])
      | str s => simp [Json.sz, Json.render, quoteChars]
      | arr l =>
        have h2 : sizeOf (Json.arr l) = 1 + sizeOf l := by simp
        have hb := ihe l (by omega)
        simp only [Json.sz, Json.render, List.length_cons, List.length_append,
          List.length_singleton]
        omega
      | obj l =>
        have h2 : sizeOf (Json.obj l) = 1 + sizeOf l := by simp
        have hb := ihf l (by omega)
        simp only [Json.sz, Json.render, List.length_cons, List.length_append,
          List.length_singleton]
        omega
    · cases l with
      | nil => simp [szElems]
      | cons v vs =>
        have h2 : sizeOf (v :: vs) = 1 + sizeOf v + sizeOf vs := by simp
        have hv' := ihv v (by omega)
        cases vs with
        | nil =>
          simp only [szElems, renderElems]
          omega
        | cons w ws =>
          have hvs := ihe (w :: ws) (by omega)
          simp only [szElems, renderElems, List.length_append, List.length_cons] at hvs ⊢
          omega
    · cases l with
      | nil => simp [szFields]
      | cons kv tl =>
        obtain ⟨k, v⟩ := kv
        have h2 : sizeOf ((k, v) :: tl) = 1 + sizeOf (k, v) + sizeOf tl := by simp
        have h3 : sizeOf ((k, v) : String × Json) = 1 + sizeOf k + sizeOf v := by simp
        have hv' := ihv v (by omega)
        cases tl with
        | nil =>
          simp only [szFields, renderFields, List.length_append, List.length_cons]
          omega
        | cons kv2 tl2 =>
          have htl := ihf (kv2 :: tl2) (by omega)
          simp only [szFields, renderFields, List.length_append, List.length_cons] at htl ⊢
          omega

theorem sz_le_render (v : Json) : Json.sz v ≤ v.render.length :=
  (sz_le_render_all (sizeOf v)).1 v le_rfl

theorem parse_stringify (v : Json) : Json.parse (Json.stringify v) = some v := by
  unfold Json.parse Json.stringify
  have hb := (parseF_render (2 * v.render.length + 2)).1 v []
    (by have := sz_le_render v; omega) (by intro c hc; simp at hc)
  rw [List.append_nil] at hb
  have hdata : (⟨v.render⟩ : String).data = v.render := rfl
  rw [hdata, hb]

theorem decodeOp_opInJson (op : StoredOp) : decodeOp (opInJson op) = some op := by
  obtain ⟨t, ts, d, pr⟩ := op
  cases ts <;> cases d <;> cases pr <;> rfl

theorem isPrefixOf_append_self (p l : List Char) : p.isPrefixOf (p ++ l) = true := by
  simp [List.isPrefixOf_iff_prefix]

theorem sysP_not_prefix (l : List Char) : sysP.data.isPrefixOf (opP.data ++ l) = false := rfl

theorem stripFirst_append (pat l : List Char) (hne : pat ≠ []) :
    stripFirst pat (pat ++ l) = l := by
  match pat, hne with
  | p :: ps, _ =>
    have hp : (p :: ps).isPrefixOf (p :: (ps ++ l)) = true :=
      isPrefixOf_append_self (p :: ps) l
    rw [List.cons_append]
    simp only [stripFirst, hp, if_true]
    rw [show p :: (ps ++ l) = (p :: ps) ++ l from rfl, List.drop_left]

theorem stripOp_append (id : String) : stripOp (opP ++ id) = id := by
  unfold stripOp
  rw [String.data_append, stripFirst_append opP.data id.data (by decide)]

/-- C7: through the generic interface, an operation-queue key stores the
JSON-decoded operation under the id obtained by stripping the reserved
marker, and `get` returns `null` for an absent id, else a JSON string
whose parse is exactly the stored record (with `processed` defaulted by
the write). -/
theorem put_get_operation_roundtrip (db : DB) (id t : String) (ts : Int) (d : Json)
    (pb : Option Bool) :
    dbPut db (opP ++ id) (Json.str (Json.stringify (opInJson ⟨t, some ts, some d, pb⟩))) ⟨none⟩
      = some { db with operations := putAssoc db.operations id ⟨t, some ts, some d, some (pb.getD false)⟩ }
    ∧ dbGet { db with operations := putAssoc db.operations id ⟨t, some ts, some d, some (pb.getD false)⟩ } (opP ++ id)
      = Json.str (Json.stringify (opOutJson ⟨t, some ts, some d, pb.getD false⟩))
    ∧ Json.parse (Json.stringify (opOutJson ⟨t, some ts, some d, pb.getD false⟩))
      = some (opOutJson ⟨t, some ts, some d, pb.getD false⟩)
    ∧ (findVal db.operations id = none → dbGet db (opP ++ id) = Json.null) := by
  have hsys : sysP.data.isPrefixOf (opP ++ id).data = false := by
    rw [String.data_append]
    exact sysP_not_prefix id.data
  have hop : opP.data.isPrefixOf (opP ++ id).data = true := by
    rw [String.data_append]
    exact isPrefixOf_append_self _ _
  have hstrip : stripOp (opP ++ id) = id := stripOp_append id
  refine ⟨?_, ?_, parse_stringify _, ?_⟩
  · unfold dbPut
    rw [if_neg (by rw [hsys]; simp), if_pos hop]
    simp only [parse_stringify, decodeOp_opInJson, hstrip]
    rfl
  · unfold dbGet
    rw [if_neg (by rw [hsys]; simp), if_pos hop, hstrip]
    unfold getIndexOperation
    rw [findVal_putAssoc_self]
    simp
  · intro h
    unfold dbGet
    rw [if_neg (by rw [hsys]; simp), if_pos hop, hstrip]
    unfold getIndexOperation
    rw [h]

/-- Witness for C7 at a concrete store. -/
theorem put_get_operation_roundtrip_witness :
    findVal exDB2.operations "op1" = none ∧ dbGet exDB2 (opP ++ "op1") = Json.null :=
  ⟨rfl, (put_get_operation_roundtrip exDB2 "op1" "add" 5 Json.null none).2.2.2 rfl⟩

theorem effLimit_pos (x : Option Nat) : 0 < effLimit x := by
  cases x with
  | none => decide
  | some l => cases l <;> simp [effLimit]

theorem effLimit_some (L : Nat) (hL : L ≠ 0) : effLimit (some L) = L := by
  match L, hL with
  | l + 1, _ => rfl

theorem listFilesOn_more (files : List (String × FileRecord)) (px : String) (L : Nat)
    (hL : L ≠ 0) (cur : Option String) (start : Nat)
    (hstart : (match effCursor cur with
      | none => 0
      | some c => (jsIndexOf (sortedMatchingKeys files px) c + 1).toNat) = start)
    (hmore : start + L < (sortedMatchingKeys files px).length) :
    (listFilesOn files ⟨some px, some L, cur, none⟩).keys.map ListedKey.name
        = ((sortedMatchingKeys files px).drop start).take L
    ∧ (listFilesOn files ⟨some px, some L, cur, none⟩).cursor
        = (sortedMatchingKeys files px)[start + L - 1]?
    ∧ (listFilesOn files ⟨some px, some L, cur, none⟩).list_complete = false := by
  unfold listFilesOn
  simp only [Option.getD_some, effLimit_some L hL, hstart]
  have hlen : (((sortedMatchingKeys files px).drop start).take (L + 1)).length = L + 1 := by
    simp [List.length_take, List.length_drop]
    omega
  have hdec : decide (L < (((sortedMatchingKeys files px).drop start).take (L + 1)).length)
      = true := by
    rw [hlen]
    simp
  simp only [hdec, if_true, Bool.not_true]
  refine ⟨?_, ?_, ?_⟩
  · rw [List.map_map, List.take_take]
    have hmin : min L (L + 1) = L := by omega
    rw [hmin]
    have hproj : (ListedKey.name ∘ fun name => ListedKey.mk name (jsOrObj
        (match findVal files name with
          | some r => r.metadata
          | none => none))) = id := rfl
    rw [hproj, List.map_id]
  case refine_3 => trivial
  · rw [List.getLast?_map, Option.map_map]
    have hproj : (ListedKey.name ∘ fun name => ListedKey.mk name (jsOrObj
        (match findVal files name with
          | some r => r.metadata
          | none => none))) = id := rfl
    rw [hproj, Option.map_id, id_eq]
    rw [List.getLast?_eq_getElem?]
    rw [List.take_take]
    have hmin : min L (L + 1) = L := by omega
    rw [hmin]
    have hlen2 : (((sortedMatchingKeys files px).drop start).take L).length = L := by
      simp [List.length_take, List.length_drop]
      omega
    rw [hlen2]
    rw [List.getElem?_take, if_pos (by omega : L - 1 < L), List.getElem?_drop]
    congr 1
    omega

theorem listFilesOn_last (files : List (String × FileRecord)) (px : String) (L : Nat)
    (hL : L ≠ 0) (cur : Option String) (start : Nat)
    (hstart : (match effCursor cur with
      | none => 0
      | some c => (jsIndexOf (sortedMatchingKeys files px) c + 1).toNat) = start)
    (hlast : (sortedMatchingKeys files px).length ≤ start + L) :
    (listFilesOn files ⟨some px, some L, cur, none⟩).keys.map ListedKey.name
        = (sortedMatchingKeys files px).drop start
    ∧ (listFilesOn files ⟨some px, some L, cur, none⟩).cursor = none
    ∧ (listFilesOn files ⟨some px, some L, cur, none⟩).list_complete = true := by
  unfold listFilesOn
  simp only [Option.getD_some, effLimit_some L hL, hstart]
  have hlen : (((sortedMatchingKeys files px).drop start).take (L + 1)).length
      = (sortedMatchingKeys files px).length - start := by
    simp [List.length_take, List.length_drop]
    omega
  have hdec : decide (L < (((sortedMatchingKeys files px).drop start).take (L + 1)).length)
      = false := by
    rw [hlen]
    simp
    omega
  simp only [hdec, Bool.false_eq_true, if_false, Bool.not_false]
  refine ⟨?_, ?_, ?_⟩
  · rw [List.map_map]
    have hproj : (ListedKey.name ∘ fun name => ListedKey.mk name (jsOrObj
        (match findVal files name with
          | some r => r.metadata
          | none => none))) = id := rfl
    rw [hproj, List.map_id]
    exact List.take_of_length_le (by simp [List.length_drop]; omega)
  · trivial
  · trivial

theorem page_complete_iff (sliced : List String) (limit : Nat) (hpos : 0 < limit)
    (mk2 : String → ListedKey) :
    (!decide (limit < sliced.length))
      = (if decide (limit < sliced.length) = true
          then (((if decide (limit < sliced.length) = true
              then sliced.take limit else sliced).map mk2).getLast?).map ListedKey.name
          else none).isNone := by
  by_cases h : limit < sliced.length
  · have hd : decide (limit < sliced.length) = true := decide_eq_true h
    have hlen : ((sliced.take limit).map mk2).length = limit := by
      simp [List.length_take]
      omega
    have hsome : ((sliced.take limit).map mk2).getLast?.isSome := by
      rw [List.getLast?_isSome]
      intro hnil
      rw [hnil] at hlen
      simp at hlen
      omega
    obtain ⟨x, hx⟩ := Option.isSome_iff_exists.mp hsome
    simp only [hd, reduceIte, Bool.not_true, hx]
    rfl
  · simp [h]

theorem listFilesOn_complete_iff (files : List (String × FileRecord)) (o : ListOptions) :
    (listFilesOn files o).list_complete = (listFilesOn files o).cursor.isNone := by
  unfold listFilesOn
  exact page_complete_iff _ _ (effLimit_pos o.limit) _

theorem jsIndexOf_getElemOpt (l : List String) (hnd : l.Nodup) (i : Nat) (c : String)
    (h : l[i]? = some c) : jsIndexOf l c = (i : Int) := by
  have hi : i < l.length := by
    by_contra hge
    rw [List.getElem?_eq_none (by omega)] at h
    cases h
  rw [List.getElem?_eq_getElem hi] at h
  have hc := Option.some.inj h
  rw [← hc]
  exact jsIndexOf_getElem l hnd i hi

theorem mem_of_getElemOpt (l : List String) (i : Nat) (c : String) (h : l[i]? = some c) :
    c ∈ l := by
  have hi : i < l.length := by
    by_contra hge
    rw [List.getElem?_eq_none (by omega)] at h
    cases h
  rw [List.getElem?_eq_getElem hi] at h
  have hc := Option.some.inj h
  rw [← hc]
  exact List.getElem_mem hi

theorem toNat_addsub (start L : Nat) (hL : L ≠ 0) :
    (((start + L - 1 : Nat) : Int) + 1).toNat = start + L := by
  omega

theorem runPagination_drop (files : List (String × FileRecord)) (px : String) (L : Nat)
    (hL : L ≠ 0) (hnd : (sortedMatchingKeys files px).Nodup)
    (hM : "" ∉ sortedMatchingKeys files px) :
    ∀ (fuel start : Nat) (cur : Option String),
      (sortedMatchingKeys files px).length - start < fuel →
      ((cur = none ∧ start = 0) ∨ (∃ c, cur = some c ∧ c ≠ ""
        ∧ (jsIndexOf (sortedMatchingKeys files px) c + 1).toNat = start)) →
      runPagination files px L fuel cur = some ((sortedMatchingKeys files px).drop start) := by
  intro fuel
  induction fuel with
  | zero =>
    intro start cur hf _
    omega
  | succ fuel ih =>
    intro start cur hf hcur
    have hstart : (match effCursor cur with
        | none => 0
        | some c => (jsIndexOf (sortedMatchingKeys files px) c + 1).toNat) = start := by
      rcases hcur with ⟨rfl, rfl⟩ | ⟨c, rfl, hcne, hidx⟩
      · rfl
      · simp [effCursor, hcne, hidx]
    by_cases hmore : start + L < (sortedMatchingKeys files px).length
    · obtain ⟨hnames, hcursor, _⟩ := listFilesOn_more files px L hL cur start hstart hmore
      obtain ⟨c2, hc2⟩ : ∃ c2, (sortedMatchingKeys files px)[start + L - 1]? = some c2 :=
        ⟨_, List.getElem?_eq_getElem (by clear hstart hcur; omega)⟩
      have hc2mem : c2 ∈ sortedMatchingKeys files px := mem_of_getElemOpt _ _ _ hc2
      have hc2ne : c2 ≠ "" := fun he => hM (he ▸ hc2mem)
      have hc2idx : jsIndexOf (sortedMatchingKeys files px) c2 = ((start + L - 1 : Nat) : Int) :=
        jsIndexOf_getElemOpt _ hnd _ _ hc2
      have hrec := ih (start + L) (some c2) (by clear hstart hcur hc2 hc2idx; omega)
        (Or.inr ⟨c2, rfl, hc2ne, by rw [hc2idx]; exact toNat_addsub start L hL⟩)
      have hsplit : ((sortedMatchingKeys files px).drop start).take L
          ++ (sortedMatchingKeys files px).drop (start + L)
          = (sortedMatchingKeys files px).drop start := by
        rw [← List.drop_drop]
        exact List.take_append_drop L ((sortedMatchingKeys files px).drop start)
      simp only [runPagination]
      rw [hcursor, hc2]
      simp [hrec, hnames, hsplit]
    · obtain ⟨hnames, hcursor, _⟩ :=
        listFilesOn_last files px L hL cur start hstart (by clear hstart hcur; omega)
      simp only [runPagination]
      rw [hcursor]
      simp [hnames]

/-- C1 counterexample: with file keys `""` and `"a"` and limit 1, the
first page yields only the empty-string key with cursor `""` and
`list_complete = false`; because `options.cursor || null` treats the
empty-string cursor as absent, following that cursor returns the
identical page, so iterating never yields `"a"`, repeats `""`, and never
reaches a complete page (the claim as stated fails). -/
theorem listFiles_pagination_empty_key_counterexample :
    (listFiles exDB1 ⟨some "", some 1, none, none⟩).keys.map ListedKey.name = [""]
    ∧ (listFiles exDB1 ⟨some "", some 1, none, none⟩).cursor = some ""
    ∧ (listFiles exDB1 ⟨some "", some 1, none, none⟩).list_complete = false
    ∧ listFiles exDB1 ⟨some "", some 1, some "", none⟩
        = listFiles exDB1 ⟨some "", some 1, none, none⟩
    ∧ runPagination exDB1.files "" 1 ((sortedMatchingKeys exDB1.files "").length + 1) none
        = none :=
  ⟨rfl, rfl, rfl, rfl, rfl⟩

/-- C1 (amended): for every file namespace with distinct keys in which
the empty string is not a matching key, and every positive limit,
repeatedly calling `listFiles` and following the returned cursors yields
every key matching the prefix exactly once in ascending code-unit
order, and `list_complete` is true exactly on the page whose returned
cursor is null. -/
theorem listFiles_pagination_complete (files : List (String × FileRecord)) (px : String)
    (L : Nat) (hL : 0 < L) (hnd : (files.map Prod.fst).Nodup)
    (hM : "" ∉ matchingKeys files px) :
    runPagination files px L ((sortedMatchingKeys files px).length + 1) none
      = some (sortedMatchingKeys files px)
    ∧ (sortedMatchingKeys files px).Nodup
    ∧ (sortedMatchingKeys files px).Sorted strLe
    ∧ (∀ k, k ∈ sortedMatchingKeys files px ↔
        k ∈ files.map Prod.fst ∧ px.data.isPrefixOf k.data = true)
    ∧ (∀ o : ListOptions,
        (listFilesOn files o).list_complete = (listFilesOn files o).cursor.isNone) := by
  have hperm := List.perm_insertionSort strLe (matchingKeys files px)
  have hndm : (sortedMatchingKeys files px).Nodup :=
    hperm.nodup_iff.mpr (hnd.filter _)
  have hMm : "" ∉ sortedMatchingKeys files px := fun h => hM (hperm.mem_iff.mp h)
  refine ⟨?_, hndm, List.sorted_insertionSort strLe _, ?_, ?_⟩
  · have := runPagination_drop files px L (by omega) hndm hMm
      ((sortedMatchingKeys files px).length + 1) 0 none (by omega) (Or.inl ⟨rfl, rfl⟩)
    simpa using this
  · intro k
    rw [sortedMatchingKeys, hperm.mem_iff]
    simp [matchingKeys, List.mem_filter]
  · intro o
    exact listFilesOn_complete_iff files o

/-- Witness for the amended C1 at a concrete store. -/
theorem listFiles_pagination_complete_witness :
    0 < 1 ∧ (exDB2.files.map Prod.fst).Nodup ∧ "" ∉ matchingKeys exDB2.files ""
    ∧ runPagination exDB2.files "" 1 ((sortedMatchingKeys exDB2.files "").length + 1) none
        = some (sortedMatchingKeys exDB2.files "") :=
  ⟨by decide, by decide, by decide,
   (listFiles_pagination_complete exDB2.files "" 1 (by decide) (by decide) (by decide)).1⟩
